import Mathlib

/-!
Shallow embedding of `scripts/migrate_frontmatter.py` (the structural
metadata migrator of the agent-skills repository).

Modelling conventions:
* A document / a line is a `List Char` (Python `str`, assumed to contain
  only `\n` as a line boundary and ASCII whitespace, which is the case
  for the documents this script operates on).
* `yaml.safe_load` is a third-party library, not code of this repository;
  its observable result — whether the frontmatter parses as a mapping,
  and which keys the value of `metadata` holds — is passed to `migrate`
  as an explicit `ParseResult` argument (the code reads nothing else from
  the parse: `fm_dict.get("author"/"repo"/"tags")` on lines 112-114 of the
  source are assigned and never used).
* File system interaction (reading/writing SKILL.md, `skill_dir` paths) is
  replaced by the document text as input and a `MigrateResult` as output;
  the two path segments and the basename that the script derives from
  `skill_dir` are passed as the `parts`/`basename` arguments.
* The SKIP log messages that the script prints are modelled as the
  distinct failure constructors of `MigrateResult` (print + `return False`
  in the source is one observable outcome, distinct from the silent
  `return False` of the no-change path and from writing + `return True`).
-/

namespace MigrateSpec

/-- A physical line (or a whole text): Python `str` as a list of characters. -/
abbrev Line := List Char

/-- A field key, e.g. `author`. -/
abbrev Key := List Char

/-- Convert a Lean string literal to the `List Char` representation. -/
def chars (s : String) : List Char := s.data

/-- Python `str.isspace()` on a single character, for the ASCII range
(the only characters the migrated documents contain). -/
def pyIsSpace (c : Char) : Bool :=
  c == ' ' || c == '\t' || c == '\n' || c == '\r' || c == '\x0b' || c == '\x0c'

/-- Python `str.strip()`: drop whitespace from both ends. -/
def pyStrip (s : List Char) : List Char :=
  ((s.dropWhile pyIsSpace).reverse.dropWhile pyIsSpace).reverse

/-- Helper for `splitlines`: accumulate the current line (reversed). -/
def splitlinesAux (acc : List Char) : List Char → List (List Char)
  | [] => [acc.reverse]
  | c :: rest =>
    if c = '\n' then
      acc.reverse :: (if rest.isEmpty then [] else splitlinesAux [] rest)
    else
      splitlinesAux (c :: acc) rest

/-- Python `str.splitlines()` restricted to `\n` boundaries:
`"" ↦ []`, `"a\n" ↦ ["a"]`, `"a\nb" ↦ ["a","b"]`, `"\n" ↦ [""]`. -/
def splitlines (s : List Char) : List (List Char) :=
  if s.isEmpty then [] else splitlinesAux [] s

/-- Python `"\n".join(lines)`. -/
def joinLines (ls : List (List Char)) : List Char :=
  List.intercalate (chars "\n") ls

/-- Helper for `_split_frontmatter`: given the text after the opening
`---\n`, find the non-greedy split at the first `\n---\n`, returning the
frontmatter text and the rest starting at the closing `---\n`
(the regex `(.*?)\n(---\n.*)` with `re.DOTALL`). -/
def splitAux : List Char → Option (List Char × List Char)
  | [] => none
  | c :: cs =>
    if c = '\n' && List.isPrefixOf (chars "---\n") cs then
      some ([], cs)
    else
      match splitAux cs with
      | some (fm, r) => some (c :: fm, r)
      | none => none

/-- `_split_frontmatter` (source lines 23-31): `re.match(r"^---\n(.*?)\n(---\n.*)",
content, re.DOTALL)`; returns `(frontmatter_text, rest_including_closing_delim)`,
or `none` when no valid frontmatter is found. -/
def splitFrontmatter (content : List Char) : Option (List Char × List Char) :=
  if List.isPrefixOf (chars "---\n") content then
    splitAux (content.drop 4)
  else
    none

/-- The derived key of one line (`_parse_fm_lines` body, source lines 42-47):
`some key` iff the line is nonempty, its first character is not whitespace
and it contains a colon; the key is the stripped text before the first colon. -/
def lineKey (l : Line) : Option Key :=
  match l with
  | [] => none
  | c :: _ =>
    if !(pyIsSpace c) && l.contains ':' then
      some (pyStrip (l.takeWhile (fun x => x ≠ ':')))
    else
      none

/-- `_parse_fm_lines` applied to an already-split line list:
`[(key_or_None, raw_line), ...]`. -/
def classifyLines (lines : List Line) : List (Option Key × Line) :=
  lines.map (fun l => (lineKey l, l))

/-- `_parse_fm_lines` (source lines 34-48). -/
def parseFmLines (fmText : List Char) : List (Option Key × Line) :=
  classifyLines (splitlines fmText)

/-- `FIELDS_TO_MIGRATE = {"author", "repo", "tags"}` (source line 20). -/
def FIELDS_TO_MIGRATE : List Key := [chars "author", chars "repo", chars "tags"]

/-- `key in FIELDS_TO_MIGRATE`. -/
def isMigrateField (k : Key) : Bool := decide (k ∈ FIELDS_TO_MIGRATE)

/-- State of the Phase-1 extraction loop (source lines 80-98):
`extracted_lines` (a dict, modelled as an association list built in
insertion order), `keep_lines`, `skip_continuation`, `current_extract_key`
and the `changed` flag. -/
structure ExtractState where
  extracted : List (Key × List Line)
  keep : List Line
  skipCont : Bool
  currentKey : Option Key
  changed : Bool
  deriving Repr, DecidableEq

/-- The state before the loop (source lines 78-84). -/
def initExtract : ExtractState :=
  { extracted := [], keep := [], skipCont := false, currentKey := none, changed := false }

/-- `extracted_lines.setdefault(key, []).append(line)`: append `l` to the
list of the first entry keyed `k`, or add a new entry at the end. -/
def appendExtract : List (Key × List Line) → Key → Line → List (Key × List Line)
  | [], k, l => [(k, [l])]
  | (k', ls) :: rest, k, l =>
    if k' = k then (k', ls ++ [l]) :: rest
    else (k', ls) :: appendExtract rest k l

/-- Dict lookup in `extracted_lines` (first entry with the given key). -/
def lookupExtract : List (Key × List Line) → Key → Option (List Line)
  | [], _ => none
  | (k', ls) :: rest, k => if k' = k then some ls else lookupExtract rest k

/-- `extracted_lines[k]` defaulting to `[]` when absent. -/
def lookupD (m : List (Key × List Line)) (k : Key) : List Line :=
  (lookupExtract m k).getD []

/-- One iteration of the Phase-1 loop (source lines 86-98). -/
def extractStep (st : ExtractState) (kl : Option Key × Line) : ExtractState :=
  match kl.1 with
  | some k =>
    if isMigrateField k then
      { st with
          extracted := appendExtract st.extracted k kl.2
          currentKey := some k
          skipCont := true
          changed := true }
    else
      { st with skipCont := false, currentKey := none, keep := st.keep ++ [kl.2] }
  | none =>
    if st.skipCont then
      -- continuation line of the field being extracted; `current_extract_key`
      -- is necessarily set here in the source (the `getD` default is dead)
      { st with extracted := appendExtract st.extracted (st.currentKey.getD (chars "")) kl.2 }
    else
      { st with skipCont := false, currentKey := none, keep := st.keep ++ [kl.2] }

/-- The whole Phase-1 loop over the classified lines. -/
def extractGo (st : ExtractState) : List (Option Key × Line) → ExtractState
  | [] => st
  | kl :: rest => extractGo (extractStep st kl) rest

/-- Source lines 101-107: derive `(dir_author, skill_name)` from the path
segments below the skills directory, with the `"unknown"`/basename fallback. -/
def inferContext (parts : List (List Char)) (basename : List Char) :
    (List Char) × (List Char) :=
  match parts with
  | a :: n :: _ => (a, n)
  | _ => (chars "unknown", basename)

/-- Python `skill_name.split("-")` (single-character separator semantics:
`"" ↦ [""]`, `"a--b" ↦ ["a","","b"]`). -/
def splitOnDashAux (acc : List Char) : List Char → List (List Char)
  | [] => [acc.reverse]
  | c :: rest =>
    if c = '-' then acc.reverse :: splitOnDashAux [] rest
    else splitOnDashAux (c :: acc) rest

/-- `skill_name.split("-")`. -/
def splitOnDash (s : List Char) : List (List Char) := splitOnDashAux [] s

/-- The dedup loop of source lines 131-136: keep the first occurrence of
each element, preserving order. -/
def dedupFirst (l : List (List Char)) : List (List Char) :=
  l.foldl (fun acc t => if t ∈ acc then acc else acc ++ [t]) []

/-- Source lines 128-136: the derived tag list — split the skill name on
hyphens, take the first three segments when there are more than three,
append `"curated"`, deduplicate preserving first occurrence. -/
def deriveTags (skillName : List Char) : List (List Char) :=
  let nameParts := splitOnDash skillName
  let tagList := (if nameParts.length > 3 then nameParts.take 3 else nameParts)
    ++ [chars "curated"]
  dedupFirst tagList

/-- Spec-side definition of the default tag derivation, following the spec's
words: "derive from the item name by splitting on hyphens, taking at most the
first three segments (if the name has more than three hyphen-delimited parts
— if three or fewer, take all of them), then append a fixed sentinel tag,
then deduplicate preserving first-occurrence order". To be compared with the
source-side `deriveTags`. -/
def specDerivedTags (name : List Char) : List (List Char) :=
  let segments := splitOnDash name
  let chosen := if segments.length > 3 then segments.take 3 else segments
  dedupFirst (chosen ++ [chars "curated"])

/-- Source lines 116-138: the `inferred_lines` list — one rendered line per
target field absent from both `extracted_lines` and `existing_metadata`
(the latter abstracted as the key list `metaKeys` of `fm_dict["metadata"]`). -/
def inferredLines (ext : List (Key × List Line)) (metaKeys : List Key)
    (dirAuthor skillName : List Char) : List Line :=
  (if (lookupExtract ext (chars "author")).isNone
      && !(decide ((chars "author") ∈ metaKeys)) then
    [chars "  author: " ++ dirAuthor]
  else []) ++
  (if (lookupExtract ext (chars "repo")).isNone
      && !(decide ((chars "repo") ∈ metaKeys)) then
    [chars "  repo: github.com/malarbase/agent-skills"]
  else []) ++
  (if (lookupExtract ext (chars "tags")).isNone
      && !(decide ((chars "tags") ∈ metaKeys)) then
    [chars "  tags: [" ++ List.intercalate (chars ", ") (deriveTags skillName) ++ chars "]"]
  else [])

/-- Source line 145: `has_metadata_key` — some parsed line has key
`"metadata"` (the `k not in FIELDS_TO_MIGRATE` filter of the source is kept
verbatim although `"metadata"` is never a migrated field). -/
def hasMetadataKey (ps : List (Option Key × Line)) : Bool :=
  ps.any fun kl =>
    match kl.1 with
    | some k => !(isMigrateField k) && decide (k = chars "metadata")
    | none => false

/-- Source line 157: re-indent a relocated line one level (`f"  {raw}"`). -/
def reindent (l : Line) : Line := chars "  " ++ l

/-- Source lines 152-157 for one field: the re-indented lines of the field
when it was extracted, nothing otherwise. -/
def fieldPart (ext : List (Key × List Line)) (f : Key) : List Line :=
  match lookupExtract ext f with
  | some ls => ls.map reindent
  | none => []

/-- Source lines 151-157: the extracted field lines, re-indented, in the
fixed order `author, repo, tags`. -/
def metaFieldLines (ext : List (Key × List Line)) : List Line :=
  fieldPart ext (chars "author") ++ fieldPart ext (chars "repo")
    ++ fieldPart ext (chars "tags")

/-- `extracted_lines.setdefault(k, []).append(l)` iterated over a whole
field group (used to state the atomic attachment of a field group). -/
def appendMany (m : List (Key × List Line)) (f : Key) (ls : List Line) :
    List (Key × List Line) :=
  ls.foldl (fun acc l => appendExtract acc f l) m

/-- Source lines 147-160: `meta_block_lines` — the `metadata:` header when
the key is absent, then the re-indented extracted lines, then the inferred
lines. -/
def buildMetaBlock (hasMeta : Bool) (ext : List (Key × List Line))
    (inf : List Line) : List Line :=
  (if hasMeta then [] else [chars "metadata:"]) ++ metaFieldLines ext ++ inf

/-- `line.startswith("metadata:")` (source line 171). -/
def startsWithMeta (l : Line) : Bool := List.isPrefixOf (chars "metadata:") l

/-- `line and line[0].isspace()` (source line 176). -/
def isIndentCont (l : Line) : Bool :=
  match l with
  | [] => false
  | c :: _ => pyIsSpace c

/-- Source lines 166-192: the reassembly scan over `keep_lines` with state
`(in_metadata, metadata_done)`, injecting `meta_block_lines` at the end of
the existing `metadata:` block (or after the whole list when the block is
last). -/
def rGo (mb : List Line) (inMeta metaDone : Bool) : List Line → List Line
  | [] => if inMeta && !metaDone then mb else []
  | line :: rest =>
    if !metaDone then
      if startsWithMeta line then
        line :: rGo mb true metaDone rest
      else if inMeta then
        if isIndentCont line then
          line :: rGo mb inMeta metaDone rest
        else
          mb ++ (line :: rGo mb false true rest)
      else
        line :: rGo mb inMeta metaDone rest
    else
      line :: rGo mb inMeta metaDone rest

/-- Source lines 162-197 (Phase 4): when the `metadata:` key exists, splice
`meta_block_lines` into the existing block via the scan; otherwise append
the freshly built block at the end. -/
def reassembleKeep (hasMeta : Bool) (keep mb : List Line) : List Line :=
  if hasMeta then rGo mb false false keep else keep ++ mb

/-- The `changed` flag accumulated by the source: set during extraction
(line 91) or by any inference (lines 121, 125, 138). -/
def changedFlag (lines : List Line) (metaKeys : List Key)
    (dirAuthor skillName : List Char) : Bool :=
  (extractGo initExtract (classifyLines lines)).changed
  || !(inferredLines (extractGo initExtract (classifyLines lines)).extracted
        metaKeys dirAuthor skillName).isEmpty

/-- The new frontmatter line list produced by Phases 1-4 for one document. -/
def newFmLines (lines : List Line) (metaKeys : List Key)
    (dirAuthor skillName : List Char) : List Line :=
  reassembleKeep (hasMetadataKey (classifyLines lines))
    (extractGo initExtract (classifyLines lines)).keep
    (buildMetaBlock (hasMetadataKey (classifyLines lines))
      (extractGo initExtract (classifyLines lines)).extracted
      (inferredLines (extractGo initExtract (classifyLines lines)).extracted
        metaKeys dirAuthor skillName))

/-- The result of `yaml.safe_load(fm_text)` as the source observes it:
a YAML error, a non-dict value, or a dict whose `metadata` entry
(after `.get("metadata", {}) or {}`) has the given key list. -/
inductive ParseResult where
  | yamlError
  | notDict
  | dict (metadataKeys : List Key)
  deriving Repr, DecidableEq

/-- The observable outcome of `migrate_skill` on one document:
the three SKIP paths (no frontmatter, invalid YAML, non-dict frontmatter,
source lines 60-75), the silent no-change `return False` (line 141), or the
new document text that is written back (lines 199-208). -/
inductive MigrateResult where
  | noFrontmatter
  | invalidYaml
  | notDict
  | unchanged
  | changed (newContent : List Char)
  deriving Repr, DecidableEq

/-- The document text after the call: the new content when the migration
changed the document, the original text otherwise (nothing is written on
any other path). -/
def resultText (content : List Char) : MigrateResult → List Char
  | .changed t => t
  | _ => content

/-- `migrate_skill` (source lines 51-208) on one in-memory document:
split the frontmatter, consult the YAML parse, extract / infer / reassemble,
and report the outcome. -/
def migrate (pr : ParseResult) (parts : List (List Char)) (basename : List Char)
    (content : List Char) : MigrateResult :=
  match splitFrontmatter content with
  | none => .noFrontmatter
  | some (fmText, rest) =>
    match pr with
    | .yamlError => .invalidYaml
    | .notDict => .notDict
    | .dict metaKeys =>
      let lines := splitlines fmText
      let ctx := inferContext parts basename
      if changedFlag lines metaKeys ctx.1 ctx.2 then
        .changed (chars "---\n"
          ++ joinLines (newFmLines lines metaKeys ctx.1 ctx.2)
          ++ chars "\n" ++ rest)
      else
        .unchanged

/-- The number of lines keyed with the nesting key `metadata`. -/
def isMetaKeyLine (l : Line) : Bool := decide (lineKey l = some (chars "metadata"))

/-- Count of nesting-key lines in a line list. -/
def countMeta (ls : List Line) : Nat := List.countP isMetaKeyLine ls

/-- Total count, over all extracted field groups, of lines satisfying `p`
(the extracted side of the line-conservation ledger). -/
def sumCountP (p : Line → Bool) (m : List (Key × List Line)) : Nat :=
  (m.map fun e => List.countP p e.2).sum

/-! ### Lemmas about the frontmatter split -/

theorem isPrefixOf_eq_append :
    ∀ (p s : List Char), List.isPrefixOf p s = true → s = p ++ s.drop p.length := by
  intro p
  induction p with
  | nil => intro s _; simp
  | cons a as ih =>
    intro s h
    cases s with
    | nil => simp [List.isPrefixOf] at h
    | cons b bs =>
      simp only [List.isPrefixOf, Bool.and_eq_true, beq_iff_eq] at h
      obtain ⟨rfl, h2⟩ := h
      simpa using ih bs h2

theorem splitAux_sound :
    ∀ (s fm r : List Char), splitAux s = some (fm, r) →
      s = fm ++ '\n' :: r ∧ List.isPrefixOf (chars "---\n") r = true := by
  intro s
  induction s with
  | nil => intro fm r h; simp [splitAux] at h
  | cons c cs ih =>
    intro fm r h
    rw [splitAux] at h
    split at h
    · next hc =>
      simp only [Bool.and_eq_true, decide_eq_true_eq] at hc
      simp only [Option.some.injEq, Prod.mk.injEq] at h
      obtain ⟨rfl, rfl⟩ := h
      exact ⟨by simp [hc.1], hc.2⟩
    · next hc =>
      cases hsplit : splitAux cs with
      | none => rw [hsplit] at h; simp at h
      | some p =>
        obtain ⟨fm', r'⟩ := p
        rw [hsplit] at h
        simp only [Option.some.injEq, Prod.mk.injEq] at h
        obtain ⟨hfm, hr⟩ := h
        obtain ⟨h1, h2⟩ := ih fm' r' hsplit
        subst hfm
        subst hr
        exact ⟨by rw [List.cons_append, ← h1], h2⟩

theorem splitFrontmatter_sound (content fm r : List Char)
    (h : splitFrontmatter content = some (fm, r)) :
    content = chars "---\n" ++ fm ++ '\n' :: r
      ∧ List.isPrefixOf (chars "---\n") r = true := by
  unfold splitFrontmatter at h
  split at h
  · next hp =>
    obtain ⟨h1, h2⟩ := splitAux_sound _ _ _ h
    refine ⟨?_, h2⟩
    have hc := isPrefixOf_eq_append _ _ hp
    rw [hc]
    have hlen : (chars "---\n").length = 4 := rfl
    rw [hlen, h1, List.append_assoc]
  · simp at h

/-! ### Claim C6: malformed metadata block -/

/-- Claim C6: for every document whose metadata block fails structural
parsing as a mapping (a YAML error, or a top-level value that is not a
mapping), the migration rejects the whole document: the original text is
returned unchanged and an explicit failure, distinct from the no-change
result, is signaled. -/
theorem C6_thm (content fm rest : List Char) (parts : List (List Char))
    (basename : List Char) (h : splitFrontmatter content = some (fm, rest)) :
    migrate .yamlError parts basename content = .invalidYaml
    ∧ migrate .notDict parts basename content = .notDict
    ∧ resultText content (migrate .yamlError parts basename content) = content
    ∧ resultText content (migrate .notDict parts basename content) = content
    ∧ migrate .yamlError parts basename content ≠ .unchanged
    ∧ migrate .notDict parts basename content ≠ .unchanged := by
  have h1 : migrate .yamlError parts basename content = .invalidYaml := by
    unfold migrate; rw [h]
  have h2 : migrate .notDict parts basename content = .notDict := by
    unfold migrate; rw [h]
  refine ⟨h1, h2, by rw [h1]; rfl, by rw [h2]; rfl, ?_, ?_⟩
  · rw [h1]; decide
  · rw [h2]; decide

/-- Witness for C6 at a concrete document whose block `a: [` is invalid YAML. -/
theorem C6_w :
    migrate .yamlError [] (chars "s") (chars "---\na: [\n---\nb") = .invalidYaml
    ∧ migrate .notDict [] (chars "s") (chars "---\na: [\n---\nb") = .notDict :=
  ⟨(C6_thm (chars "---\na: [\n---\nb") (chars "a: [") (chars "---\nb") []
      (chars "s") (by decide)).1,
   (C6_thm (chars "---\na: [\n---\nb") (chars "a: [") (chars "---\nb") []
      (chars "s") (by decide)).2.1⟩

/-! ### Claim C9: frame condition on the delimiters and the body -/

/-- Claim C9: for every processable document, the output is the new metadata
block concatenated with the original delimiter lines and the unmodified body:
the opening delimiter line, the closing delimiter line and every byte after
the closing delimiter are identical in input and output. -/
theorem C9_thm (content fm rest : List Char) (pr : ParseResult)
    (parts : List (List Char)) (basename : List Char)
    (h : splitFrontmatter content = some (fm, rest)) :
    content = chars "---\n" ++ fm ++ chars "\n" ++ rest
    ∧ List.isPrefixOf (chars "---\n") rest = true
    ∧ ∀ newText, migrate pr parts basename content = .changed newText →
        ∃ newFm, newText = chars "---\n" ++ newFm ++ chars "\n" ++ rest := by
  obtain ⟨h1, h2⟩ := splitFrontmatter_sound content fm rest h
  refine ⟨by simpa using h1, h2, ?_⟩
  intro newText hm
  unfold migrate at hm
  rw [h] at hm
  cases pr with
  | yamlError => simp at hm
  | notDict => simp at hm
  | dict metaKeys =>
    simp only at hm
    split at hm
    · refine ⟨joinLines (newFmLines (splitlines fm) metaKeys
        (inferContext parts basename).1 (inferContext parts basename).2), ?_⟩
      simp only [MigrateResult.changed.injEq] at hm
      rw [← hm]
    · simp at hm

/-- Witness for C9 at a concrete document that the migration changes. -/
theorem C9_w :
    chars "---\nq: 1\n---\ntail"
      = chars "---\n" ++ chars "q: 1" ++ chars "\n" ++ chars "---\ntail"
    ∧ List.isPrefixOf (chars "---\n") (chars "---\ntail") = true
    ∧ ∃ newFm,
        chars "---\nq: 1\nmetadata:\n  author: u\n  repo: github.com/malarbase/agent-skills\n  tags: [v, w, curated]\n---\ntail"
          = chars "---\n" ++ newFm ++ chars "\n" ++ chars "---\ntail" := by
  have h := C9_thm (chars "---\nq: 1\n---\ntail") (chars "q: 1") (chars "---\ntail")
    (.dict []) [chars "u", chars "v-w"] (chars "v-w") (by decide)
  exact ⟨h.1, h.2.1, h.2.2 _ (by decide)⟩

/-! ### Claim C10: inputs without a frontmatter block -/

/-- Claim C10: for every input text in which no frontmatter block is found,
migrate reports no change and performs no modification; the delimiter match
requires the literal line `---` at the very start of the text. -/
theorem C10_thm (content : List Char) (pr : ParseResult)
    (parts : List (List Char)) (basename : List Char) :
    (splitFrontmatter content = none →
      migrate pr parts basename content = .noFrontmatter
      ∧ resultText content (migrate pr parts basename content) = content)
    ∧ (List.isPrefixOf (chars "---\n") content = false →
      splitFrontmatter content = none) := by
  constructor
  · intro h
    have h1 : migrate pr parts basename content = .noFrontmatter := by
      unfold migrate; rw [h]
    exact ⟨h1, by rw [h1]; rfl⟩
  · intro h
    unfold splitFrontmatter
    rw [h]
    simp

/-- Witness for C10 at a concrete text with no frontmatter. -/
theorem C10_w :
    migrate .yamlError [] (chars "s") (chars "plain text") = .noFrontmatter
    ∧ splitFrontmatter (chars "--x\nno") = none :=
  ⟨((C10_thm (chars "plain text") .yamlError [] (chars "s")).1 (by decide)).1,
   (C10_thm (chars "--x\nno") .yamlError [] (chars "s")).2 (by decide)⟩

/-! ### Claim C1: idempotence fails on the code -/

/-- Claim C1 (code bug): on the valid document whose nesting-key line is
`metadata :` (whitespace before the colon, so that the line is keyed
`metadata` by the classifier but does not start with the literal
`metadata:` that the reassembly scan matches), the migration reports a
change while producing byte-identical text — the inferred lines are
silently dropped — and therefore the second application also reports a
change instead of the `changed = false` the claim requires. The YAML
parse of this block is the mapping with `metadata.author` present, hence
the `ParseResult.dict [chars "author"]` oracle. -/
theorem C1_bug :
    migrate (.dict [chars "author"]) [chars "alice", chars "cool-skill"]
        (chars "cool-skill") (chars "---\nmetadata :\n  author: bob\n---\nbody\n")
      = .changed (chars "---\nmetadata :\n  author: bob\n---\nbody\n")
    ∧ migrate (.dict [chars "author"]) [chars "alice", chars "cool-skill"]
        (chars "cool-skill")
        (resultText (chars "---\nmetadata :\n  author: bob\n---\nbody\n")
          (migrate (.dict [chars "author"]) [chars "alice", chars "cool-skill"]
            (chars "cool-skill") (chars "---\nmetadata :\n  author: bob\n---\nbody\n")))
      ≠ .unchanged := by
  exact ⟨by decide, by decide⟩

/-! ### Claim C3: default tag derivation -/

/-- Claim C3: when the tag field is absent both at top level and in the
nested sub-block and no explicit values exist, the derived tags come from
splitting the item name on hyphens (first three segments when more than
three), appending the `curated` sentinel and deduplicating in
first-occurrence order; in particular, for namespace `alice` and item name
`pdf-merge-tool-extra` the migration emits
`tags: [pdf, merge, tool, curated]`, and the code-side derivation agrees
with the spec-side formulation on every name. -/
theorem C3_thm :
    migrate (.dict []) [chars "alice", chars "pdf-merge-tool-extra"]
        (chars "pdf-merge-tool-extra") (chars "---\ntitle: x\n---\nbody")
      = .changed (chars "---\ntitle: x\nmetadata:\n  author: alice\n  repo: github.com/malarbase/agent-skills\n  tags: [pdf, merge, tool, curated]\n---\nbody")
    ∧ deriveTags (chars "pdf-merge-tool-extra")
        = [chars "pdf", chars "merge", chars "tool", chars "curated"]
    ∧ ∀ name : List Char, deriveTags name = specDerivedTags name := by
  exact ⟨by decide, by decide, fun name => rfl⟩

/-! ### Counterexamples for claims C4, C5, C7 and C8 -/

/-- Counterexample to claim C4 as stated: the remaining lines contain the
key line `metadata :`, whose key IS the nesting key, yet the extracted
`repo: foo` line is not injected after the sub-block — it appears nowhere
in the output (neither raw nor re-indented): the reassembly scan matches
the literal `metadata:` text, not the parsed key. -/
theorem C4_cex :
    lineKey (chars "metadata :") = some (chars "metadata")
    ∧ lookupD (extractGo initExtract
        (parseFmLines (chars "metadata :\n  author: bob\nrepo: foo"))).extracted
        (chars "repo") = [chars "repo: foo"]
    ∧ migrate (.dict [chars "author"]) [chars "al", chars "sk"] (chars "sk")
        (chars "---\nmetadata :\n  author: bob\nrepo: foo\n---\nx")
      = .changed (chars "---\nmetadata :\n  author: bob\n---\nx")
    ∧ (chars "  repo: foo") ∉ newFmLines
        (splitlines (chars "metadata :\n  author: bob\nrepo: foo"))
        [chars "author"] (chars "al") (chars "sk")
    ∧ (chars "repo: foo") ∉ newFmLines
        (splitlines (chars "metadata :\n  author: bob\nrepo: foo"))
        [chars "author"] (chars "al") (chars "sk") := by
  exact ⟨by decide, by decide, by decide, by decide, by decide⟩

/-- Counterexample to claim C5 as stated: a document whose block holds the
nesting key twice (PyYAML accepts duplicate mapping keys, the later one
wins, so the block still parses as a mapping with `metadata.author`
present) migrates with a reported change, and the output block still holds
two `metadata` key lines — not exactly one. -/
theorem C5_cex :
    changedFlag [chars "metadata:", chars "  author: bob", chars "metadata:",
        chars "  author: carl", chars "repo: foo"]
        [chars "author"] (chars "al") (chars "sk") = true
    ∧ countMeta (newFmLines [chars "metadata:", chars "  author: bob",
        chars "metadata:", chars "  author: carl", chars "repo: foo"]
        [chars "author"] (chars "al") (chars "sk")) = 2
    ∧ migrate (.dict [chars "author"]) [chars "al", chars "sk"] (chars "sk")
        (chars "---\nmetadata:\n  author: bob\nmetadata:\n  author: carl\nrepo: foo\n---\nb")
      = .changed (chars "---\nmetadata:\n  author: bob\nmetadata:\n  author: carl\n  repo: foo\n  tags: [sk, curated]\n---\nb") := by
  exact ⟨by decide, by decide, by decide⟩

/-- Counterexample to claim C7 as stated: the blank continuation line inside
the multi-line `tags` value is attached to the extracted group (no leak into
remaining), but it is NOT preserved byte-for-byte in the relocated output:
like every relocated line it is re-indented with two spaces, so the empty
line becomes the two-space line and no empty line remains in the output
block. -/
theorem C7_cex :
    lookupD (extractGo initExtract
        (parseFmLines (chars "tags: |\n  a\n\n  b\ntitle: x"))).extracted
        (chars "tags")
      = [chars "tags: |", chars "  a", chars "", chars "  b"]
    ∧ migrate (.dict []) [chars "alice", chars "myskill"] (chars "myskill")
        (chars "---\ntags: |\n  a\n\n  b\ntitle: x\n---\nbody")
      = .changed (chars "---\ntitle: x\nmetadata:\n  tags: |\n    a\n  \n    b\n  author: alice\n  repo: github.com/malarbase/agent-skills\n---\nbody")
    ∧ (chars "") ∉ newFmLines (splitlines (chars "tags: |\n  a\n\n  b\ntitle: x"))
        [] (chars "alice") (chars "myskill")
    ∧ (chars "  ") ∈ newFmLines (splitlines (chars "tags: |\n  a\n\n  b\ntitle: x"))
        [] (chars "alice") (chars "myskill") := by
  exact ⟨by decide, by decide, by decide, by decide⟩

/-- Counterexample to claim C8 as stated: in a document where the
source-identifier field `repo` is absent from both the top level and the
nested sub-block, and although the code offers the caller no way to supply
a literal, a `repo` line with the hardcoded value
`github.com/malarbase/agent-skills` is inferred and added anyway. -/
theorem C8_cex :
    migrate (.dict []) [chars "bob", chars "thing"] (chars "thing")
        (chars "---\ntitle: y\n---\nz")
      = .changed (chars "---\ntitle: y\nmetadata:\n  author: bob\n  repo: github.com/malarbase/agent-skills\n  tags: [thing, curated]\n---\nz")
    ∧ (chars "  repo: github.com/malarbase/agent-skills")
        ∈ newFmLines [chars "title: y"] [] (chars "bob") (chars "thing") := by
  exact ⟨by decide, by decide⟩

/-! ### Lemmas about the extraction loop -/

theorem appendExtract_sumCountP (p : Line → Bool) :
    ∀ (m : List (Key × List Line)) (k : Key) (l : Line),
    sumCountP p (appendExtract m k l) = sumCountP p m + List.countP p [l] := by
  intro m
  induction m with
  | nil => intro k l; simp [appendExtract, sumCountP]
  | cons e rest ih =>
    intro k l
    obtain ⟨k', ls⟩ := e
    by_cases hk : k' = k
    · subst hk
      simp [appendExtract, sumCountP, List.countP_append]
      omega
    · simp [appendExtract, hk, sumCountP, List.countP_append]
      have := ih k l
      simp [sumCountP] at this
      omega

theorem lookupD_appendExtract :
    ∀ (m : List (Key × List Line)) (k : Key) (l : Line) (f : Key),
    lookupD (appendExtract m k l) f =
      if f = k then lookupD m f ++ [l] else lookupD m f := by
  intro m
  induction m with
  | nil =>
    intro k l f
    by_cases hf : f = k
    · subst hf; simp [appendExtract, lookupD, lookupExtract]
    · have hf2 : ¬(k = f) := fun h => hf h.symm
      simp [appendExtract, lookupD, lookupExtract, hf, hf2]
  | cons e rest ih =>
    intro k l f
    obtain ⟨k', ls⟩ := e
    by_cases hk : k' = k
    · subst hk
      by_cases hf : k' = f
      · subst hf; simp [appendExtract, lookupD, lookupExtract]
      · have hf2 : ¬(f = k') := fun h => hf h.symm
        simp [appendExtract, lookupD, lookupExtract, hf, hf2]
    · by_cases hf : k' = f
      · subst hf
        have hk2 : ¬(k' = k) := hk
        simp [appendExtract, hk2, lookupD, lookupExtract]
      · have h := ih k l f
        simp only [lookupD] at h
        simp [appendExtract, hk, lookupD, lookupExtract, hf, h]

theorem extractGo_countP (p : Line → Bool) :
    ∀ (ps : List (Option Key × Line)) (st : ExtractState),
    List.countP p (extractGo st ps).keep + sumCountP p (extractGo st ps).extracted
      = List.countP p st.keep + sumCountP p st.extracted
        + List.countP p (ps.map Prod.snd) := by
  intro ps
  induction ps with
  | nil => intro st; simp [extractGo]
  | cons kl rest ih =>
    intro st
    rw [extractGo, ih]
    obtain ⟨ko, l⟩ := kl
    have hstep : List.countP p (extractStep st (ko, l)).keep
        + sumCountP p (extractStep st (ko, l)).extracted
        = List.countP p st.keep + sumCountP p st.extracted + List.countP p [l] := by
      cases ko with
      | some k =>
        cases hk : isMigrateField k with
        | true => simp [extractStep, hk, appendExtract_sumCountP]; omega
        | false => simp [extractStep, hk, List.countP_append]; omega
      | none =>
        cases hs : st.skipCont with
        | true => simp [extractStep, hs, appendExtract_sumCountP]; omega
        | false => simp [extractStep, hs, List.countP_append]; omega
    rw [show List.countP p (extractStep st (ko, l)).keep
        + sumCountP p (extractStep st (ko, l)).extracted
        + List.countP p (List.map Prod.snd rest)
      = (List.countP p (extractStep st (ko, l)).keep
        + sumCountP p (extractStep st (ko, l)).extracted)
        + List.countP p (List.map Prod.snd rest) from rfl, hstep]
    simp [List.countP_cons]
    omega

theorem extractGo_keep_sub :
    ∀ (ps : List (Option Key × Line)) (st : ExtractState),
    ∃ t, (extractGo st ps).keep = st.keep ++ t
      ∧ List.Sublist t (ps.map Prod.snd) := by
  intro ps
  induction ps with
  | nil => intro st; exact ⟨[], by simp [extractGo], List.nil_sublist _⟩
  | cons kl rest ih =>
    intro st
    obtain ⟨t, ht, hs⟩ := ih (extractStep st kl)
    obtain ⟨ko, l⟩ := kl
    cases ko with
    | some k =>
      cases hk : isMigrateField k with
      | true =>
        refine ⟨t, ?_, List.Sublist.cons l hs⟩
        rw [extractGo, ht]
        simp [extractStep, hk]
      | false =>
        refine ⟨l :: t, ?_, List.Sublist.cons₂ l hs⟩
        rw [extractGo, ht]
        simp [extractStep, hk]
    | none =>
      cases hsc : st.skipCont with
      | true =>
        refine ⟨t, ?_, List.Sublist.cons l hs⟩
        rw [extractGo, ht]
        simp [extractStep, hsc]
      | false =>
        refine ⟨l :: t, ?_, List.Sublist.cons₂ l hs⟩
        rw [extractGo, ht]
        simp [extractStep, hsc]

theorem extractGo_field_sub (f : Key) :
    ∀ (ps : List (Option Key × Line)) (st : ExtractState),
    ∃ t, lookupD (extractGo st ps).extracted f = lookupD st.extracted f ++ t
      ∧ List.Sublist t (ps.map Prod.snd) := by
  intro ps
  induction ps with
  | nil => intro st; exact ⟨[], by simp [extractGo], List.nil_sublist _⟩
  | cons kl rest ih =>
    intro st
    obtain ⟨t, ht, hs⟩ := ih (extractStep st kl)
    obtain ⟨ko, l⟩ := kl
    cases ko with
    | some k =>
      cases hk : isMigrateField k with
      | true =>
        by_cases hf : f = k
        · subst hf
          refine ⟨l :: t, ?_, List.Sublist.cons₂ l hs⟩
          rw [extractGo, ht]
          simp [extractStep, hk, lookupD_appendExtract]
        · refine ⟨t, ?_, List.Sublist.cons l hs⟩
          rw [extractGo, ht]
          simp [extractStep, hk, lookupD_appendExtract, hf]
      | false =>
        refine ⟨t, ?_, List.Sublist.cons l hs⟩
        rw [extractGo, ht]
        simp [extractStep, hk]
    | none =>
      cases hsc : st.skipCont with
      | true =>
        by_cases hf : f = st.currentKey.getD (chars "")
        · refine ⟨l :: t, ?_, List.Sublist.cons₂ l hs⟩
          rw [extractGo, ht]
          simp [extractStep, hsc, lookupD_appendExtract, hf]
        · refine ⟨t, ?_, List.Sublist.cons l hs⟩
          rw [extractGo, ht]
          simp [extractStep, hsc, lookupD_appendExtract, hf]
      | false =>
        refine ⟨t, ?_, List.Sublist.cons l hs⟩
        rw [extractGo, ht]
        simp [extractStep, hsc]

/-! ### Lemmas about the reassembly scan -/

theorem rGo_done (mb : List Line) (i : Bool) :
    ∀ l : List Line, rGo mb i true l = l := by
  intro l
  induction l with
  | nil => simp [rGo]
  | cons x rest ih => simp [rGo, ih]

theorem rGo_sub (mb : List Line) :
    ∀ (l : List Line) (i d : Bool), List.Sublist l (rGo mb i d l) := by
  intro l
  induction l with
  | nil => intro i d; exact List.nil_sublist _
  | cons x rest ih =>
    intro i d
    cases d with
    | true => rw [rGo_done]
    | false =>
      cases hsw : startsWithMeta x with
      | true =>
        rw [show rGo mb i false (x :: rest) = x :: rGo mb true false rest by
          simp [rGo, hsw]]
        exact List.Sublist.cons₂ x (ih true false)
      | false =>
        cases i with
        | true =>
          cases hic : isIndentCont x with
          | true =>
            rw [show rGo mb true false (x :: rest) = x :: rGo mb true false rest by
              simp [rGo, hsw, hic]]
            exact List.Sublist.cons₂ x (ih true false)
          | false =>
            rw [show rGo mb true false (x :: rest) = mb ++ (x :: rGo mb false true rest) by
              simp [rGo, hsw, hic]]
            rw [rGo_done]
            exact List.sublist_append_right mb (x :: rest)
        | false =>
          rw [show rGo mb false false (x :: rest) = x :: rGo mb false false rest by
            simp [rGo, hsw]]
          exact List.Sublist.cons₂ x (ih false false)

/-! ### Claim C2: extraction is a stable partition -/

/-- Claim C2: for every list of classified metadata lines, extraction is a
stable partition of the input line sequence — for every predicate the count
over the input equals the count over `remaining` plus the counts over the
extracted groups (no line duplicated or dropped), `remaining` is a
subsequence of the input, every extracted field group is a subsequence of
the input (relative order preserved), and every remaining line survives
reassembly in its original relative order. -/
theorem C2_thm (ps : List (Option Key × Line)) :
    (∀ p : Line → Bool,
      List.countP p (ps.map Prod.snd)
        = List.countP p (extractGo initExtract ps).keep
          + sumCountP p (extractGo initExtract ps).extracted)
    ∧ List.Sublist (extractGo initExtract ps).keep (ps.map Prod.snd)
    ∧ (∀ f : Key, List.Sublist (lookupD (extractGo initExtract ps).extracted f)
        (ps.map Prod.snd))
    ∧ (∀ (hasMeta : Bool) (mb : List Line),
        List.Sublist (extractGo initExtract ps).keep
          (reassembleKeep hasMeta (extractGo initExtract ps).keep mb)) := by
  refine ⟨?_, ?_, ?_, ?_⟩
  · intro p
    have h := extractGo_countP p ps initExtract
    have e1 : List.countP p initExtract.keep = 0 := rfl
    have e2 : sumCountP p initExtract.extracted = 0 := rfl
    rw [e1, e2] at h
    omega
  · obtain ⟨t, ht, hs⟩ := extractGo_keep_sub ps initExtract
    have e : initExtract.keep = [] := rfl
    rw [ht, e, List.nil_append]
    exact hs
  · intro f
    obtain ⟨t, ht, hs⟩ := extractGo_field_sub f ps initExtract
    have e : lookupD initExtract.extracted f = [] := rfl
    rw [ht, e, List.nil_append]
    exact hs
  · intro hasMeta mb
    unfold reassembleKeep
    cases hasMeta with
    | true => simpa using rGo_sub mb (extractGo initExtract ps).keep false false
    | false => simp

/-! ### Counting nesting-key lines -/

theorem countMeta_append (x y : List Line) :
    countMeta (x ++ y) = countMeta x + countMeta y := by
  simp [countMeta, List.countP_append]

theorem isMigrateField_metadata : isMigrateField (chars "metadata") = false := by
  decide

theorem migrateField_ne_metadata (k : Key) (hk : isMigrateField k = true) :
    k ≠ chars "metadata" := by
  intro h
  rw [h] at hk
  exact absurd hk (by decide)

theorem isMetaKeyLine_reindent (l : Line) : isMetaKeyLine (reindent l) = false := rfl

theorem isMetaKeyLine_authorLine (a : List Char) :
    isMetaKeyLine (chars "  author: " ++ a) = false := rfl

theorem isMetaKeyLine_repoLine :
    isMetaKeyLine (chars "  repo: github.com/malarbase/agent-skills") = false := by
  decide

theorem isMetaKeyLine_tagsLine (x : List Char) :
    isMetaKeyLine (chars "  tags: [" ++ (x ++ chars "]")) = false := rfl

theorem classifyLines_map_snd :
    ∀ ls : List Line, (classifyLines ls).map Prod.snd = ls := by
  intro ls
  induction ls with
  | nil => rfl
  | cons x xs ih =>
    show x :: (classifyLines xs).map Prod.snd = x :: xs
    rw [ih]

theorem reassembleKeep_false (keep mb : List Line) :
    reassembleKeep false keep mb = keep ++ mb := rfl

theorem reassembleKeep_true (keep mb : List Line) :
    reassembleKeep true keep mb = rGo mb false false keep := rfl

theorem isMetaKeyLine_header : isMetaKeyLine (chars "metadata:") = true := by
  decide

theorem countMeta_map_reindent (ls : List Line) : countMeta (ls.map reindent) = 0 := by
  unfold countMeta
  rw [List.countP_eq_zero]
  intro l hl
  obtain ⟨x, hx, rfl⟩ := List.mem_map.mp hl
  simp [isMetaKeyLine_reindent]

theorem countMeta_fieldPart (ext : List (Key × List Line)) (f : Key) :
    countMeta (fieldPart ext f) = 0 := by
  unfold fieldPart
  cases lookupExtract ext f with
  | none => rfl
  | some ls => exact countMeta_map_reindent ls

theorem countMeta_inferredLines (ext : List (Key × List Line)) (metaKeys : List Key)
    (a n : List Char) : countMeta (inferredLines ext metaKeys a n) = 0 := by
  unfold inferredLines
  rw [countMeta_append, countMeta_append]
  have h1 : countMeta (if (lookupExtract ext (chars "author")).isNone
      && !(decide ((chars "author") ∈ metaKeys)) then
      [chars "  author: " ++ a] else []) = 0 := by
    split
    · simp [countMeta, List.countP_cons, isMetaKeyLine_authorLine]
    · rfl
  have h2 : countMeta (if (lookupExtract ext (chars "repo")).isNone
      && !(decide ((chars "repo") ∈ metaKeys)) then
      [chars "  repo: github.com/malarbase/agent-skills"] else []) = 0 := by
    split
    · simp [countMeta, List.countP_cons, isMetaKeyLine_repoLine]
    · rfl
  have h3 : countMeta (if (lookupExtract ext (chars "tags")).isNone
      && !(decide ((chars "tags") ∈ metaKeys)) then
      [chars "  tags: [" ++ List.intercalate (chars ", ") (deriveTags n) ++ chars "]"]
      else []) = 0 := by
    split
    · simp [countMeta, List.countP_cons, isMetaKeyLine_tagsLine]
    · rfl
  omega

theorem countMeta_buildMetaBlock (hm : Bool) (ext : List (Key × List Line))
    (inf : List Line) (hinf : countMeta inf = 0) :
    countMeta (buildMetaBlock hm ext inf) = if hm then 0 else 1 := by
  unfold buildMetaBlock metaFieldLines
  rw [countMeta_append, countMeta_append, countMeta_append, countMeta_append,
    countMeta_fieldPart, countMeta_fieldPart, countMeta_fieldPart, hinf]
  cases hm with
  | true => rfl
  | false => simp [countMeta, List.countP_cons, isMetaKeyLine_header]

theorem hasMetadataKey_classify (lines : List Line) :
    hasMetadataKey (classifyLines lines) = lines.any isMetaKeyLine := by
  induction lines with
  | nil => rfl
  | cons l rest ih =>
    have e : classifyLines (l :: rest) = (lineKey l, l) :: classifyLines rest := rfl
    rw [e]
    unfold hasMetadataKey at ih ⊢
    rw [List.any_cons, List.any_cons, ih]
    congr 1
    cases hkl : lineKey l with
    | none => simp [hkl, isMetaKeyLine]
    | some k =>
      by_cases hk : k = chars "metadata"
      · subst hk
        simp [hkl, isMetaKeyLine, isMigrateField_metadata]
      · simp [hkl, isMetaKeyLine, hk]

theorem extractGo_sum_meta :
    ∀ (lines : List Line) (st : ExtractState),
    sumCountP isMetaKeyLine (extractGo st (classifyLines lines)).extracted
      = sumCountP isMetaKeyLine st.extracted := by
  intro lines
  induction lines with
  | nil => intro st; rfl
  | cons l rest ih =>
    intro st
    have e : classifyLines (l :: rest) = (lineKey l, l) :: classifyLines rest := rfl
    rw [e, extractGo, ih]
    cases hkl : lineKey l with
    | some k =>
      cases hk : isMigrateField k with
      | true =>
        have hne : isMetaKeyLine l = false := by
          simp only [isMetaKeyLine, hkl, Option.some.injEq, decide_eq_false_iff_not]
          exact migrateField_ne_metadata k hk
        simp [extractStep, hkl, hk, appendExtract_sumCountP, List.countP_cons,
          List.countP_nil, hne]
      | false => simp [extractStep, hkl, hk]
    | none =>
      cases hs : st.skipCont with
      | true =>
        have hne : isMetaKeyLine l = false := by simp [isMetaKeyLine, hkl]
        simp [extractStep, hkl, hs, appendExtract_sumCountP, List.countP_cons,
          List.countP_nil, hne]
      | false => simp [extractStep, hkl, hs]

theorem extractGo_keep_countMeta (lines : List Line) :
    countMeta (extractGo initExtract (classifyLines lines)).keep = countMeta lines := by
  have h := extractGo_countP isMetaKeyLine (classifyLines lines) initExtract
  have hs := extractGo_sum_meta lines initExtract
  have e1 : List.countP isMetaKeyLine initExtract.keep = 0 := rfl
  have e2 : sumCountP isMetaKeyLine initExtract.extracted = 0 := rfl
  have e3 := classifyLines_map_snd lines
  rw [e1, e2, e3] at h
  rw [e2] at hs
  unfold countMeta
  omega

theorem rGo_countP_or (p : Line → Bool) (mb : List Line) :
    ∀ (l : List Line) (i d : Bool),
    List.countP p (rGo mb i d l) = List.countP p l + List.countP p mb
    ∨ List.countP p (rGo mb i d l) = List.countP p l := by
  intro l
  induction l with
  | nil =>
    intro i d
    cases i with
    | true =>
      cases d with
      | true => right; simp [rGo]
      | false => left; simp [rGo]
    | false => right; simp [rGo]
  | cons x rest ih =>
    intro i d
    cases d with
    | true => right; rw [rGo_done]
    | false =>
      cases hsw : startsWithMeta x with
      | true =>
        have e : rGo mb i false (x :: rest) = x :: rGo mb true false rest := by
          simp [rGo, hsw]
        rcases ih true false with h | h
        · left
          rw [e, List.countP_cons, List.countP_cons, h]
          omega
        · right
          rw [e, List.countP_cons, List.countP_cons, h]
      | false =>
        cases i with
        | true =>
          cases hic : isIndentCont x with
          | true =>
            have e : rGo mb true false (x :: rest) = x :: rGo mb true false rest := by
              simp [rGo, hsw, hic]
            rcases ih true false with h | h
            · left
              rw [e, List.countP_cons, List.countP_cons, h]
              omega
            · right
              rw [e, List.countP_cons, List.countP_cons, h]
          | false =>
            have e : rGo mb true false (x :: rest) = mb ++ (x :: rest) := by
              simp [rGo, hsw, hic, rGo_done]
            left
            rw [e, List.countP_append, List.countP_cons]
            omega
        | false =>
          have e : rGo mb false false (x :: rest) = x :: rGo mb false false rest := by
            simp [rGo, hsw]
          rcases ih false false with h | h
          · left
            rw [e, List.countP_cons, List.countP_cons, h]
            omega
          · right
            rw [e, List.countP_cons, List.countP_cons, h]

theorem countMeta_reassembled (hm : Bool) (keepL mbL : List Line)
    (hkeep : countMeta keepL = if hm then 1 else 0)
    (hmb : countMeta mbL = if hm then 0 else 1) :
    countMeta (reassembleKeep hm keepL mbL) = 1 := by
  cases hm with
  | false =>
    rw [reassembleKeep_false, countMeta_append, hkeep, hmb]
    rfl
  | true =>
    rw [reassembleKeep_true]
    simp at hkeep hmb
    rcases rGo_countP_or isMetaKeyLine mbL keepL false false with h | h
    · unfold countMeta at hkeep hmb ⊢
      omega
    · unfold countMeta at hkeep hmb ⊢
      omega

/-! ### Claim C5 (amended): uniqueness of the nesting key in the output -/

/-- Claim C5, amended: for every document whose metadata block holds at most
one line keyed with the nesting key, after a migration that reports a change
the nesting key appears exactly once as a key line in the output metadata
block (the claim as stated fails when the input already holds two such
lines, see the counterexample). -/
theorem C5_thm (lines : List Line) (metaKeys : List Key)
    (dirAuthor skillName : List Char)
    (h1 : countMeta lines ≤ 1)
    (h2 : changedFlag lines metaKeys dirAuthor skillName = true) :
    countMeta (newFmLines lines metaKeys dirAuthor skillName) = 1 := by
  unfold newFmLines
  have hmb := countMeta_buildMetaBlock (hasMetadataKey (classifyLines lines))
    (extractGo initExtract (classifyLines lines)).extracted
    (inferredLines (extractGo initExtract (classifyLines lines)).extracted
      metaKeys dirAuthor skillName)
    (countMeta_inferredLines _ _ _ _)
  have hkeep := extractGo_keep_countMeta lines
  cases hM : hasMetadataKey (classifyLines lines) with
  | false =>
    have h0 : countMeta lines = 0 := by
      rw [hasMetadataKey_classify] at hM
      rw [countMeta, List.countP_eq_zero]
      intro a ha
      exact (List.any_eq_false.mp hM) a ha
    apply countMeta_reassembled
    · rw [hkeep, h0]
      rfl
    · rw [hM] at hmb
      exact hmb
  | true =>
    have hge : 1 ≤ countMeta lines := by
      rw [hasMetadataKey_classify] at hM
      obtain ⟨a, ha, hpa⟩ := List.any_eq_true.mp hM
      have hp : 0 < List.countP isMetaKeyLine lines :=
        List.countP_pos_iff.mpr ⟨a, ha, hpa⟩
      unfold countMeta
      omega
    have h0 : countMeta lines = 1 := Nat.le_antisymm h1 hge
    apply countMeta_reassembled
    · rw [hkeep, h0]
      rfl
    · rw [hM] at hmb
      exact hmb

/-- Witness for the amended C5 at a concrete document. -/
theorem C5_w :
    countMeta (newFmLines [chars "t: 1"] [] (chars "a") (chars "b-c")) = 1 :=
  C5_thm [chars "t: 1"] [] (chars "a") (chars "b-c") (by decide) (by decide)

/-! ### Position of the injected lines in the reassembly scan -/

theorem startsWithMeta_head (c : Char) (t : Line)
    (h : startsWithMeta (c :: t) = true) : c = 'm' := by
  have e : startsWithMeta (c :: t)
      = (('m' == c) && List.isPrefixOf (chars "etadata:") t) := rfl
  rw [e, Bool.and_eq_true] at h
  obtain ⟨h1, _⟩ := h
  exact (eq_of_beq h1).symm

theorem indent_not_startsWithMeta (l : Line) (h : isIndentCont l = true) :
    startsWithMeta l = false := by
  cases l with
  | nil => simp [isIndentCont] at h
  | cons c t =>
    simp only [isIndentCont] at h
    cases hsw : startsWithMeta (c :: t) with
    | false => rfl
    | true =>
      have hc := startsWithMeta_head c t hsw
      subst hc
      exact absurd h (by decide)

theorem rGo_before (mb : List Line) :
    ∀ (A rest : List Line), (∀ l ∈ A, startsWithMeta l = false) →
    rGo mb false false (A ++ rest) = A ++ rGo mb false false rest := by
  intro A
  induction A with
  | nil => intro rest _; rfl
  | cons a A2 ih =>
    intro rest hA
    have ha : startsWithMeta a = false := hA a (by simp)
    have hrec := ih rest (fun l hl => hA l (by simp [hl]))
    simp only [List.cons_append]
    rw [show rGo mb false false (a :: (A2 ++ rest))
        = a :: rGo mb false false (A2 ++ rest) by simp [rGo, ha], hrec]

theorem rGo_trigger (mb : List Line) (m : Line) (t : List Line)
    (hm : startsWithMeta m = true) :
    rGo mb false false (m :: t) = m :: rGo mb true false t := by
  simp [rGo, hm]

theorem rGo_inside (mb : List Line) :
    ∀ (B rest : List Line), (∀ l ∈ B, isIndentCont l = true) →
    rGo mb true false (B ++ rest) = B ++ rGo mb true false rest := by
  intro B
  induction B with
  | nil => intro rest _; rfl
  | cons b B2 ih =>
    intro rest hB
    have hb : isIndentCont b = true := hB b (by simp)
    have hsw : startsWithMeta b = false := indent_not_startsWithMeta b hb
    have hrec := ih rest (fun l hl => hB l (by simp [hl]))
    simp only [List.cons_append]
    rw [show rGo mb true false (b :: (B2 ++ rest))
        = b :: rGo mb true false (B2 ++ rest) by simp [rGo, hsw, hb], hrec]

theorem rGo_close_nil (mb : List Line) : rGo mb true false [] = mb := by
  simp [rGo]

theorem rGo_close_cons (mb : List Line) (c : Line) (C2 : List Line)
    (h1 : isIndentCont c = false) (h2 : startsWithMeta c = false) :
    rGo mb true false (c :: C2) = mb ++ c :: C2 := by
  simp [rGo, h1, h2, rGo_done]

/-! ### Claim C4 (amended): where the migrated lines are injected -/

/-- Claim C4, amended: if the remaining lines contain a line that begins
with the literal `metadata:` text, then all injected lines land immediately
after the contiguous run of whitespace-indented lines following the first
such line and before the first subsequent line that is neither indented nor
begins with that literal (or at the end of input when the sub-block is
last); if the nesting key never occurs as a parsed key, a freshly created
sub-block header followed by all extracted and inferred lines is appended
at the very end of the reassembled block. (The claim as stated — keyed on
the PARSED key rather than on the literal line text — fails, see the
counterexample: a `metadata :` line is keyed `metadata` but triggers no
injection at all.) -/
theorem C4_thm :
    (∀ (A B C : List Line) (m : Line) (mb : List Line),
      (∀ l ∈ A, startsWithMeta l = false) →
      startsWithMeta m = true →
      (∀ l ∈ B, isIndentCont l = true) →
      (C = [] ∨ ∃ c C2, C = c :: C2 ∧ isIndentCont c = false
        ∧ startsWithMeta c = false) →
      reassembleKeep true (A ++ m :: (B ++ C)) mb = A ++ m :: (B ++ (mb ++ C)))
    ∧ (∀ (keep : List Line) (ext : List (Key × List Line)) (inf : List Line),
      reassembleKeep false keep (buildMetaBlock false ext inf)
        = keep ++ chars "metadata:" :: (metaFieldLines ext ++ inf)) := by
  constructor
  · intro A B C m mb hA hm hB hC
    rw [reassembleKeep_true, rGo_before mb A (m :: (B ++ C)) hA,
      rGo_trigger mb m (B ++ C) hm, rGo_inside mb B C hB]
    rcases hC with rfl | ⟨c, C2, rfl, h1, h2⟩
    · rw [rGo_close_nil]
      simp
    · rw [rGo_close_cons mb c C2 h1 h2]
  · intro keep ext inf
    rw [reassembleKeep_false]
    unfold buildMetaBlock
    simp

/-- Witness for the amended C4 at concrete line lists, covering both the
in-place injection and the appended fresh block. -/
theorem C4_w :
    reassembleKeep true [chars "metadata:", chars "  a: 1"] [chars "  z: 2"]
      = [chars "metadata:", chars "  a: 1", chars "  z: 2"]
    ∧ reassembleKeep false [chars "q: 1"]
        (buildMetaBlock false [] [chars "  author: x"])
      = [chars "q: 1", chars "metadata:", chars "  author: x"] := by
  constructor
  · have h := C4_thm.1 [] [chars "  a: 1"] [] (chars "metadata:") [chars "  z: 2"]
      (by decide) (by decide) (by decide) (Or.inl rfl)
    simpa using h
  · have h := C4_thm.2 [chars "q: 1"] [] [chars "  author: x"]
    simpa [metaFieldLines, fieldPart, lookupExtract] using h

/-! ### Claim C7 (amended): multi-line values move as one atomic unit -/

theorem extractGo_konts (f : Key) :
    ∀ (K : List (Option Key × Line)) (m : List (Key × List Line)) (kp : List Line)
      (ch : Bool) (rest : List (Option Key × Line)),
    (∀ x ∈ K, x.1 = none) →
    extractGo ⟨m, kp, true, some f, ch⟩ (K ++ rest)
      = extractGo ⟨appendMany m f (K.map Prod.snd), kp, true, some f, ch⟩ rest := by
  intro K
  induction K with
  | nil => intro m kp ch rest _; rfl
  | cons x K2 ih =>
    intro m kp ch rest h
    obtain ⟨kx, lx⟩ := x
    have hx : kx = none := h (kx, lx) (by simp)
    subst hx
    simp only [List.cons_append]
    rw [extractGo]
    have hstep : extractStep ⟨m, kp, true, some f, ch⟩ ((none : Option Key), lx)
        = ⟨appendExtract m f lx, kp, true, some f, ch⟩ := rfl
    rw [hstep, ih (appendExtract m f lx) kp ch rest (fun y hy => h y (by simp [hy]))]
    rfl

/-- Claim C7, amended: a target field's key line together with every
null-keyed line that follows it (blank lines included) attaches atomically
to that field's extracted group — the remaining list is untouched while the
group is consumed — and the group reappears in the rebuilt block
contiguously, every line re-indented by exactly two spaces (so a blank
continuation line becomes a two-space line rather than being preserved
byte-for-byte, see the counterexample). -/
theorem C7_thm :
    (∀ (f : Key) (kl : Line) (K rest : List (Option Key × Line)) (st : ExtractState),
      isMigrateField f = true →
      (∀ x ∈ K, x.1 = none) →
      extractGo st ((some f, kl) :: (K ++ rest))
        = extractGo ⟨appendMany st.extracted f (kl :: K.map Prod.snd),
            st.keep, true, some f, true⟩ rest)
    ∧ (∀ (ext : List (Key × List Line)) (f : Key) (ls : List Line) (hm : Bool)
        (inf : List Line),
      isMigrateField f = true →
      lookupExtract ext f = some ls →
      ∃ X Y, buildMetaBlock hm ext inf = X ++ ls.map reindent ++ Y) := by
  constructor
  · intro f kl K rest st hf hK
    rw [extractGo]
    have hstep : extractStep st (some f, kl)
        = ⟨appendExtract st.extracted f kl, st.keep, true, some f, true⟩ := by
      simp [extractStep, hf]
    rw [hstep, extractGo_konts f K (appendExtract st.extracted f kl) st.keep true rest hK]
    rfl
  · intro ext f ls hm inf hf hlk
    have hf3 : f = chars "author" ∨ f = chars "repo" ∨ f = chars "tags" := by
      have hmem := of_decide_eq_true hf
      simpa [FIELDS_TO_MIGRATE] using hmem
    rcases hf3 with rfl | rfl | rfl
    · refine ⟨(if hm then [] else [chars "metadata:"]),
        fieldPart ext (chars "repo") ++ fieldPart ext (chars "tags") ++ inf, ?_⟩
      unfold buildMetaBlock metaFieldLines
      rw [show fieldPart ext (chars "author") = ls.map reindent by
        unfold fieldPart; rw [hlk]]
      simp [List.append_assoc]
    · refine ⟨(if hm then [] else [chars "metadata:"]) ++ fieldPart ext (chars "author"),
        fieldPart ext (chars "tags") ++ inf, ?_⟩
      unfold buildMetaBlock metaFieldLines
      rw [show fieldPart ext (chars "repo") = ls.map reindent by
        unfold fieldPart; rw [hlk]]
      simp [List.append_assoc]
    · refine ⟨(if hm then [] else [chars "metadata:"]) ++ fieldPart ext (chars "author")
        ++ fieldPart ext (chars "repo"), inf, ?_⟩
      unfold buildMetaBlock metaFieldLines
      rw [show fieldPart ext (chars "tags") = ls.map reindent by
        unfold fieldPart; rw [hlk]]
      simp [List.append_assoc]

/-- Witness for the amended C7 at a concrete field group with a blank
continuation line. -/
theorem C7_w :
    extractGo initExtract ((some (chars "tags"), chars "tags: |")
        :: ([((none : Option Key), chars "  a"), (none, chars "")] ++ []))
      = extractGo ⟨appendMany initExtract.extracted (chars "tags")
          (chars "tags: |"
            :: [((none : Option Key), chars "  a"), (none, chars "")].map Prod.snd),
          initExtract.keep, true, some (chars "tags"), true⟩ []
    ∧ ∃ X Y, buildMetaBlock true [(chars "tags", [chars "tags: |", chars ""])] []
        = X ++ [chars "tags: |", chars ""].map reindent ++ Y :=
  ⟨C7_thm.1 (chars "tags") (chars "tags: |")
      [((none : Option Key), chars "  a"), (none, chars "")] [] initExtract
      (by decide) (by decide),
   C7_thm.2 [(chars "tags", [chars "tags: |", chars ""])] (chars "tags")
      [chars "tags: |", chars ""] true [] (by decide) rfl⟩

/-! ### Claim C8 (amended): the source-identifier default is unconditional -/

/-- Claim C8, amended: when the source-identifier field `repo` is absent
from both the extracted fields and the nested sub-block, an inferred line
with the fixed, hardcoded literal `github.com/malarbase/agent-skills` is
always added — the code gives the caller no way to supply or withhold the
literal (the claim as stated, that no line is added without a
caller-supplied literal, fails: see the counterexample). -/
theorem C8_thm (ext : List (Key × List Line)) (metaKeys : List Key)
    (dirAuthor skillName : List Char)
    (h1 : lookupExtract ext (chars "repo") = none)
    (h2 : (chars "repo") ∉ metaKeys) :
    (chars "  repo: github.com/malarbase/agent-skills")
      ∈ inferredLines ext metaKeys dirAuthor skillName := by
  unfold inferredLines
  simp [h1, decide_eq_false h2]

/-- Witness for the amended C8. -/
theorem C8_w :
    (chars "  repo: github.com/malarbase/agent-skills")
      ∈ inferredLines [] [] (chars "x") (chars "y") :=
  C8_thm [] [] (chars "x") (chars "y") rfl (by decide)

end MigrateSpec
